import Mathlib

/-!
Verification of `perception/iterative_closest_point.py`.

The file gives a shallow embedding of the ICP module over an arbitrary linear
ordered field `K` (exact arithmetic in place of floating point).  The external
numeric primitives the Python code calls — `np.linalg.svd`, the Euclidean
square root inside sklearn's `NearestNeighbors`, and
`meshcat.transformations.random_rotation_matrix` — are not part of the
repository; they are passed in as an oracle record `NumOracle`, and theorems
that depend on their documented contracts (a valid SVD with descending
non-negative singular values, `sqrt 0 = 0`, ...) take those contracts as
hypotheses.  Everything else is translated directly from the source.
-/

open Matrix

abbrev Vec3 (K : Type) := Fin 3 → K
abbrev Vec4 (K : Type) := Fin 4 → K
abbrev Mat3 (K : Type) := Matrix (Fin 3) (Fin 3) K
abbrev Mat4 (K : Type) := Matrix (Fin 4) (Fin 4) K
abbrev Cloud (K : Type) := List (Vec3 K)

/-- Failure mode of the module: the spec's `InvalidArgument` (raised by the
external nearest-neighbor search when the reference cloud is empty). -/
inductive ICPErr where
  | invalidArgument
deriving DecidableEq, Repr

/-- The external numeric primitives used by the Python code, none of which are
code of this repository: `np.linalg.svd` (returning `U`, the singular values,
and `Vt`), the square root used for Euclidean distances inside sklearn, and
the random rotation stream drawn by `tf.random_rotation_matrix` (indexed by
how many draws happened so far). -/
structure NumOracle (K : Type) where
  svd : Mat3 K → Mat3 K × (Fin 3 → K) × Mat3 K
  sqrt : K → K
  randRot : ℕ → Mat4 K

variable {K : Type} [LinearOrderedField K]

/-- Squared Euclidean distance between two 3-D points. -/
def sqDist (a b : Vec3 K) : K := ∑ i, (a i - b i) ^ 2

/-- Squared Euclidean norm of a 3-vector. -/
def sqNorm (v : Vec3 K) : K := ∑ i, v i ^ 2

/-- Index of the first minimal element of a list (`0` on the empty list).
Deterministic tie-break, as the spec requires of the neighbor search. -/
def minIdx [LinearOrder α] : List α → ℕ
  | [] => 0
  | x :: xs =>
    let j := minIdx xs
    if x ≤ xs.getD j x then 0 else j + 1

/-- `np.mean` of a list of scalars (sum divided by length). -/
def listMean (l : List K) : K := l.sum / (l.length : K)

/-- Centroid of a cloud: `np.mean(point_cloud, axis=0)`. -/
def centroid (c : Cloud K) : Vec3 K := ((c.length : K))⁻¹ • c.sum

/-- The cross-covariance `H = centered_point_cloud_A.T @ centered_point_cloud_B`
from `CalcLeastSquaresTransform` (an `N x 3` by `3 x N` product, written as the
equivalent sum of outer products of the centered rows). -/
def covH (A B : Cloud K) : Mat3 K :=
  (List.zipWith (fun a b => vecMulVec (a - centroid A) (b - centroid B)) A B).sum

/-- `Vt[m - 1, :] *= -1`: negate the last row of `Vt`. -/
def negLastRow (Vt : Mat3 K) : Mat3 K := Matrix.updateRow Vt 2 (-(Vt 2))

/-- Concrete 3x3 determinant (cofactor expansion along the first row), the
value `np.linalg.det` computes on the candidate rotation. -/
def det3 (M : Mat3 K) : K :=
  M 0 0 * (M 1 1 * M 2 2 - M 1 2 * M 2 1)
    - M 0 1 * (M 1 0 * M 2 2 - M 1 2 * M 2 0)
    + M 0 2 * (M 1 0 * M 2 1 - M 1 1 * M 2 0)

/-- Steps 2.1 and 2.2 of `CalcLeastSquaresTransform`: the candidate rotation
`R = Vt.T @ U.T`, with the special reflection case (`det(R) < 0`) corrected by
negating the last row of `Vt` and recomputing `R`. -/
def kabschR (U Vt : Mat3 K) : Mat3 K :=
  let R := Vtᵀ * Uᵀ
  if det3 R < 0 then (negLastRow Vt)ᵀ * Uᵀ else R

/-- Assembly of the homogeneous transform: `X_BA = np.identity(4)`,
`X_BA[:m, :m] = R`, `X_BA[:m, m] = t`. -/
def homog (R : Mat3 K) (t : Vec3 K) : Mat4 K :=
  Matrix.of fun i j =>
    if hi : (i : ℕ) < 3 then
      if hj : (j : ℕ) < 3 then R ⟨i, hi⟩ ⟨j, hj⟩ else t ⟨i, hi⟩
    else if (j : ℕ) < 3 then 0 else 1

/-- The rotation block `X[:3, :3]` of a homogeneous transform. -/
def rotOf (X : Mat4 K) : Mat3 K := Matrix.of fun i j => X i.castSucc j.castSucc

/-- The translation block `X[:3, 3]` of a homogeneous transform. -/
def transOf (X : Mat4 K) : Vec3 K := fun i => X i.castSucc 3

/-- Lift a 3-D point to homogeneous coordinates with fourth component `1`. -/
def hom (p : Vec3 K) : Vec4 K := fun i => if h : (i : ℕ) < 3 then p ⟨i, h⟩ else 1

/-- First three components of a homogeneous point (`point_cloud_Ah[:m, :]`). -/
def proj3 (q : Vec4 K) : Vec3 K := fun i => q i.castSucc

/-- `CalcLeastSquaresTransform(point_cloud_A, point_cloud_B)`: centroids,
cross-covariance, SVD (via the oracle), candidate rotation with reflection
correction, translation `t = centroid_B - R @ centroid_A`, and assembly into
the homogeneous `X_BA`. -/
def CalcLeastSquaresTransform (O : NumOracle K) (A B : Cloud K) : Mat4 K :=
  let s := O.svd (covH A B)
  let R := kabschR s.1 s.2.2
  homog R (centroid B - R *ᵥ centroid A)

/-- Index in `B` of the nearest neighbor of `a` (first minimal index; nearest
under the squared distance, which agrees with Euclidean nearness). -/
def nnIdx (B : Cloud K) (a : Vec3 K) : ℕ := minIdx (B.map (sqDist a))

/-- The nearest neighbor of `a` in `B` itself. -/
def nnPoint (B : Cloud K) (a : Vec3 K) : Vec3 K := B.getD (nnIdx B a) 0

/-- Euclidean distances from each point of `A` to its nearest neighbor in `B`. -/
def nnDists (O : NumOracle K) (A B : Cloud K) : List K :=
  A.map fun a => O.sqrt (sqDist a (nnPoint B a))

/-- Nearest-neighbor indices into `B` for each point of `A` (the `c_i`). -/
def nnIdxs (A B : Cloud K) : List ℕ := A.map (nnIdx B)

/-- Modelled from the spec: `FindNearestNeighbors(point_cloud_A, point_cloud_B)`
delegates to sklearn's `NearestNeighbors(n_neighbors=1).fit`/`kneighbors`,
which is external to the repository.  Per the spec, an empty reference cloud
`B` fails with `InvalidArgument` (no neighbor exists), and an empty query
cloud returns empty results; otherwise every query point gets the Euclidean
distance to and index of its nearest neighbor in `B`, deterministically. -/
def FindNearestNeighbors (O : NumOracle K) (A B : Cloud K) :
    Except ICPErr (List K × List ℕ) :=
  if B.isEmpty then .error .invalidArgument else .ok (nnDists O A B, nnIdxs A B)

/-- `point_cloud_Bh[:m, indices].T`: the points of `B` selected by the
nearest-neighbor indices. -/
def corrCloud (B : Cloud K) (idxs : List ℕ) : Cloud K := idxs.map fun i => B.getD i 0

/-- The `for num_iters in range(1, max_iterations + 1)` loop of `RunICP`.
State: remaining fuel, the homogeneous working copy of `A`, `prev_error`,
`mean_error`, and the number of iterations executed so far.  Returns the final
working copy, `mean_error` and `num_iters`. -/
def icpLoop (O : NumOracle K) (B : Cloud K) (tol : K) :
    ℕ → List (Vec4 K) → K → K → ℕ → Except ICPErr (List (Vec4 K) × K × ℕ)
  | 0, Ah, _, mean, iter => .ok (Ah, mean, iter)
  | fuel + 1, Ah, prev, _, iter => do
    let (dists, idxs) ← FindNearestNeighbors O (Ah.map proj3) B
    let T := CalcLeastSquaresTransform O (Ah.map proj3) (corrCloud B idxs)
    let Ah' := Ah.map (T *ᵥ ·)
    let m := listMean dists
    if |prev - m| < tol then .ok (Ah', m, iter + 1)
    else icpLoop O B tol fuel Ah' m m (iter + 1)

/-- The homogeneous copy of `A` after the optional initial pose estimate. -/
def initAh (A : Cloud K) (g : Option (Mat4 K)) : List (Vec4 K) :=
  match g with
  | none => A.map hom
  | some X => (A.map hom).map (X *ᵥ ·)

/-- `RunICP(point_cloud_A, point_cloud_B, init_guess, max_iterations,
tolerance)`: apply the initial guess, iterate correspondence + solve until the
error delta drops below `tolerance` or the budget runs out, then recompute the
final transformation by one fresh solve between the original `A` and the final
working copy. -/
def RunICP (O : NumOracle K) (A B : Cloud K) (init_guess : Option (Mat4 K))
    (max_iterations : ℤ) (tolerance : K) : Except ICPErr (Mat4 K × K × ℕ) := do
  let (AhF, mean_error, num_iters) ←
    icpLoop O B tolerance max_iterations.toNat (initAh A init_guess) 0 0 0
  .ok (CalcLeastSquaresTransform O A (AhF.map proj3), mean_error, num_iters)

/-- The `while mean_error > error_threshold` body of `RepeatICPUntilGoodFit`:
run ICP, count the run, stop when `mean_error <= error_threshold or
num_runs >= max_tries`, else retry from a random rotation composed with the
last result.  Fuel is `max_tries.toNat`; it reaches `0` only when
`max_tries <= num_runs + 1`, where the Python loop breaks after the run it
just counted, which is what the fuel-`0` equation returns. -/
def repeatLoop (O : NumOracle K) (A B : Cloud K) (thr : K) (maxTries : ℤ)
    (maxIter : ℤ) (tol : K) :
    ℕ → ℕ → Option (Mat4 K) → Except ICPErr (Mat4 K × K × ℕ)
  | 0, runs, guess => do
    let (X, err, _) ← RunICP O A B guess maxIter tol
    .ok (X, err, runs + 1)
  | fuel + 1, runs, guess => do
    let (X, err, _) ← RunICP O A B guess maxIter tol
    if err ≤ thr ∨ maxTries ≤ ((runs : ℤ) + 1) then .ok (X, err, runs + 1)
    else
      repeatLoop O A B thr maxTries maxIter tol fuel (runs + 1)
        (some (O.randRot runs * X))

/-- `RepeatICPUntilGoodFit(point_cloud_A, point_cloud_B, error_threshold,
max_tries, init_guess, max_iterations, tolerance)`.  `mean_error` starts at
the sentinel `1e8` and `num_runs` at `0`; if the sentinel does not exceed
`error_threshold` the `while` loop never runs and the initial identity,
sentinel error and zero run count are returned. -/
def RepeatICPUntilGoodFit (O : NumOracle K) (A B : Cloud K) (error_threshold : K)
    (max_tries : ℤ) (init_guess : Option (Mat4 K)) (max_iterations : ℤ)
    (tolerance : K) : Except ICPErr (Mat4 K × K × ℕ) :=
  if (100000000 : K) > error_threshold then
    repeatLoop O A B error_threshold max_tries max_iterations tolerance
      max_tries.toNat 0 init_guess
  else .ok (1, 100000000, 0)

/-! ### The iteration trace of `RunICP`

`traceAh k` is the homogeneous working copy of `A` after the initial guess and
`k` incremental per-iteration transforms; `iterMean k` is the mean
nearest-neighbor error computed during iteration `k`; `stopFrom` computes the
iteration at which the loop exits. -/

def icpT (O : NumOracle K) (B Ah3 : Cloud K) : Mat4 K :=
  CalcLeastSquaresTransform O Ah3 (corrCloud B (nnIdxs Ah3 B))

def icpStep (O : NumOracle K) (B : Cloud K) (Ah : List (Vec4 K)) : List (Vec4 K) :=
  Ah.map ((icpT O B (Ah.map proj3)) *ᵥ ·)

def traceAh (O : NumOracle K) (B A : Cloud K) (g : Option (Mat4 K)) : ℕ → List (Vec4 K)
  | 0 => initAh A g
  | k + 1 => icpStep O B (traceAh O B A g k)

def iterMean (O : NumOracle K) (B A : Cloud K) (g : Option (Mat4 K)) (k : ℕ) : K :=
  listMean (nnDists O ((traceAh O B A g (k - 1)).map proj3) B)

def prevErr (O : NumOracle K) (B A : Cloud K) (g : Option (Mat4 K)) (k : ℕ) : K :=
  if k = 0 then 0 else iterMean O B A g k

/-- Iteration `k ≥ 1` breaks the loop: the error delta `|prev_error -
mean_error|` observed during iteration `k` is below the tolerance. -/
def convAt (O : NumOracle K) (B A : Cloud K) (g : Option (Mat4 K)) (tol : K)
    (k : ℕ) : Prop :=
  |prevErr O B A g (k - 1) - iterMean O B A g k| < tol

def stopFrom (O : NumOracle K) (B A : Cloud K) (g : Option (Mat4 K)) (tol : K) :
    ℕ → ℕ → ℕ
  | 0, i => i
  | f + 1, i =>
    if |prevErr O B A g i - iterMean O B A g (i + 1)| < tol then i + 1
    else stopFrom O B A g tol f (i + 1)

/-- A valid SVD of `H`, as `np.linalg.svd` contracts to return it: orthogonal
`U` and `Vt` with `H = U @ diag(S) @ Vt` and nonnegative singular values in
descending order. -/
abbrev ValidSVD (H U : Mat3 K) (S : Fin 3 → K) (Vt : Mat3 K) : Prop :=
  H = U * Matrix.diagonal S * Vt ∧ Uᵀ * U = 1 ∧ Vtᵀ * Vt = 1 ∧
    (∀ i, 0 ≤ S i) ∧ S 1 ≤ S 0 ∧ S 2 ≤ S 1

/-- A rigid rotation: orthogonal with determinant `+1`. -/
abbrev IsRot (R : Mat3 K) : Prop := Rᵀ * R = 1 ∧ R.det = 1

/-- Sum of squared residuals `sum over i of norm(R A_i + t - B_i)^2` of the
rigid map `(R, t)` over index-corresponding points of `A` and `B`. -/
def ssd (R : Mat3 K) (t : Vec3 K) (A B : Cloud K) : K :=
  (List.zipWith (fun a b => sqNorm (R *ᵥ a + t - b)) A B).sum


instance {e a : Type} [DecidableEq e] [DecidableEq a] : DecidableEq (Except e a) :=
  fun x y =>
  match x, y with
  | .error u, .error v =>
    if h : u = v then isTrue (by rw [h])
    else isFalse fun hc => h (Except.error.inj hc)
  | .error _, .ok _ => isFalse fun hc => by cases hc
  | .ok _, .error _ => isFalse fun hc => by cases hc
  | .ok u, .ok v =>
    if h : u = v then isTrue (by rw [h])
    else isFalse fun hc => h (Except.ok.inj hc)

/-- A concrete test cloud: the six unit points along the coordinate axes.
Its centroid is `0` and its self cross-covariance is `2 * I` (invertible). -/
def testCloud : Cloud ℚ :=
  [![1, 0, 0], ![-1, 0, 0], ![0, 1, 0], ![0, -1, 0], ![0, 0, 1], ![0, 0, -1]]

/-- A concrete numeric oracle whose SVD answer `(1, (2,2,2), 1)` is a valid
SVD of the matrix `2 * I` that the test cloud produces. -/
def testOracle : NumOracle ℚ where
  svd := fun _ => (1, ![2, 2, 2], 1)
  sqrt := id
  randRot := fun _ => 1

/-- An oracle answering with a reflected `Vt`, driving the solver through the
reflection-correction branch. -/
def flipOracle : NumOracle ℚ where
  svd := fun _ => (1, ![1, 1, 1], Matrix.diagonal ![1, 1, -1])
  sqrt := id
  randRot := fun _ => 1

/-- A one-point query cloud slightly off the origin. -/
def ptA : Cloud ℚ := [![1 / 100, 0, 0]]

/-- A one-point reference cloud at the origin. -/
def ptB : Cloud ℚ := [![0, 0, 0]]

/-! ### Properties of the nearest-neighbor argmin -/

theorem minIdx_cons [LinearOrder α] (x : α) (xs : List α) :
    minIdx (x :: xs) = if x ≤ xs.getD (minIdx xs) x then 0 else minIdx xs + 1 :=
  rfl

theorem minIdx_lt_length [LinearOrder α] (l : List α) (h : l ≠ []) :
    minIdx l < l.length := by
  induction l with
  | nil => exact absurd rfl h
  | cons x xs ih =>
    rw [minIdx_cons]
    by_cases hx : x ≤ xs.getD (minIdx xs) x
    · rw [if_pos hx]
      simp
    · rw [if_neg hx]
      rcases xs with - | ⟨y, ys⟩
      · simp at hx
      · have := ih (by simp)
        simp only [List.length_cons] at this ⊢
        omega

theorem getD_default_irrel [LinearOrder α] (l : List α) (d d' : α) (j : ℕ)
    (hj : j < l.length) : l.getD j d = l.getD j d' := by
  rw [List.getD_eq_getElem l d hj, List.getD_eq_getElem l d' hj]

theorem getD_minIdx_le [LinearOrder α] (l : List α) (d : α) (j : ℕ)
    (hj : j < l.length) : l.getD (minIdx l) d ≤ l.getD j d := by
  induction l generalizing j with
  | nil => simp at hj
  | cons x xs ih =>
    by_cases hx : x ≤ xs.getD (minIdx xs) x
    · rw [minIdx_cons, if_pos hx, List.getD_cons_zero]
      rcases j with - | k
      · rw [List.getD_cons_zero]
      · rw [List.getD_cons_succ]
        rcases xs with - | ⟨y, ys⟩
        · simp only [List.length_cons, List.length_nil] at hj
          omega
        · have hm := minIdx_lt_length (y :: ys) (by simp)
          have h1 : (y :: ys).getD (minIdx (y :: ys)) x
              = (y :: ys).getD (minIdx (y :: ys)) d :=
            getD_default_irrel _ _ _ _ hm
          exact le_trans (h1 ▸ hx) (ih k (by simpa using hj))
    · rw [minIdx_cons, if_neg hx, List.getD_cons_succ]
      rcases xs with - | ⟨y, ys⟩
      · simp at hx
      · have hm := minIdx_lt_length (y :: ys) (by simp)
        have h1 : (y :: ys).getD (minIdx (y :: ys)) x
            = (y :: ys).getD (minIdx (y :: ys)) d :=
          getD_default_irrel _ _ _ _ hm
        rcases j with - | k
        · rw [List.getD_cons_zero]
          push_neg at hx
          exact le_of_lt (h1 ▸ hx)
        · exact ih k (by simpa using hj)

/-! ### Distances and self-neighbors -/

theorem sqDist_nonneg (a b : Vec3 K) : 0 ≤ sqDist a b := by
  unfold sqDist
  positivity

theorem sqDist_self (a : Vec3 K) : sqDist a a = 0 := by
  simp [sqDist]

theorem sqDist_eq_zero {a b : Vec3 K} (h : sqDist a b = 0) : a = b := by
  funext i
  have h' : (a i - b i) ^ 2 = 0 :=
    (Finset.sum_eq_zero_iff_of_nonneg (fun i _ => sq_nonneg _)).mp h i
      (Finset.mem_univ i)
  have h2 : a i - b i = 0 := by
    have hne : (2 : ℕ) ≠ 0 := by norm_num
    exact pow_eq_zero_iff hne |>.mp h'
  linarith [sub_eq_zero.mp h2]

/-- For a point of the cloud itself, the nearest neighbor is at squared
distance `0`, hence is the point itself. -/
theorem nnPoint_self {B : Cloud K} {a : Vec3 K} (ha : a ∈ B) :
    nnPoint B a = a := by
  have hB : B ≠ [] := List.ne_nil_of_mem ha
  obtain ⟨j, hj, hja⟩ := List.getElem_of_mem ha
  have hml : minIdx (B.map (sqDist a)) < B.length := by
    have := minIdx_lt_length (B.map (sqDist a)) (by simpa using hB)
    simpa using this
  have hle : (B.map (sqDist a)).getD (minIdx (B.map (sqDist a))) 0
      ≤ (B.map (sqDist a)).getD j 0 :=
    getD_minIdx_le _ 0 j (by simpa using hj)
  rw [List.getD_eq_getElem _ _ (by simpa using hml),
    List.getD_eq_getElem _ _ (by simpa using hj)] at hle
  simp only [List.getElem_map] at hle
  rw [hja, sqDist_self] at hle
  have h0 : sqDist a B[minIdx (B.map (sqDist a))] = 0 :=
    le_antisymm hle (sqDist_nonneg _ _)
  rw [nnPoint, nnIdx, List.getD_eq_getElem _ _ hml]
  exact (sqDist_eq_zero h0).symm

/-! ### Homogeneous coordinates -/

theorem rotOf_homog (R : Mat3 K) (t : Vec3 K) : rotOf (homog R t) = R := by
  ext i j
  fin_cases i <;> fin_cases j <;> rfl

theorem transOf_homog (R : Mat3 K) (t : Vec3 K) : transOf (homog R t) = t := by
  funext i
  fin_cases i <;> rfl

theorem proj3_hom (p : Vec3 K) : proj3 (hom p) = p := by
  funext i
  fin_cases i <;> rfl

theorem map_proj3_map_hom (A : Cloud K) : (A.map hom).map proj3 = A := by
  rw [List.map_map]
  have : proj3 ∘ hom = (id : Vec3 K → Vec3 K) := funext fun p => proj3_hom p
  rw [this, List.map_id]

theorem homog_one_zero : homog (1 : Mat3 K) (0 : Vec3 K) = (1 : Mat4 K) := by
  ext i j
  fin_cases i <;> fin_cases j <;> rfl

theorem icpLoop_eq_trace (O : NumOracle K) (B A : Cloud K) (g : Option (Mat4 K))
    (tol : K) (hB : B ≠ []) :
    ∀ fuel i,
      icpLoop O B tol fuel (traceAh O B A g i) (prevErr O B A g i)
          (prevErr O B A g i) i
        = .ok (traceAh O B A g (stopFrom O B A g tol fuel i),
            prevErr O B A g (stopFrom O B A g tol fuel i),
            stopFrom O B A g tol fuel i) := by
  intro fuel
  induction fuel with
  | zero => intro i; rfl
  | succ f ih =>
    intro i
    have hne : ¬ B.isEmpty = true := by simp [hB]
    have hm : listMean (nnDists O ((traceAh O B A g i).map proj3) B)
        = iterMean O B A g (i + 1) := by
      simp [iterMean]
    simp only [icpLoop, FindNearestNeighbors, if_neg hne, bind, Except.bind, hm]
    by_cases hc : |prevErr O B A g i - iterMean O B A g (i + 1)| < tol
    · rw [if_pos hc]
      have hs : stopFrom O B A g tol (f + 1) i = i + 1 := by
        simp only [stopFrom, if_pos hc]
      rw [hs]
      have hp : prevErr O B A g (i + 1) = iterMean O B A g (i + 1) := by
        simp [prevErr]
      rw [hp]
      rfl
    · rw [if_neg hc]
      have hs : stopFrom O B A g tol (f + 1) i = stopFrom O B A g tol f (i + 1) := by
        simp only [stopFrom, if_neg hc]
      rw [hs]
      have hp : prevErr O B A g (i + 1) = iterMean O B A g (i + 1) := by
        simp [prevErr]
      have := ih (i + 1)
      rw [hp] at this
      exact this

theorem RunICP_eq (O : NumOracle K) (A B : Cloud K) (g : Option (Mat4 K))
    (maxIter : ℤ) (tol : K) (hB : B ≠ []) :
    RunICP O A B g maxIter tol
      = .ok (CalcLeastSquaresTransform O A
            ((traceAh O B A g (stopFrom O B A g tol maxIter.toNat 0)).map proj3),
          prevErr O B A g (stopFrom O B A g tol maxIter.toNat 0),
          stopFrom O B A g tol maxIter.toNat 0) := by
  have h0 : prevErr O B A g 0 = 0 := rfl
  have h := icpLoop_eq_trace O B A g tol hB maxIter.toNat 0
  rw [h0] at h
  have h1 : traceAh O B A g 0 = initAh A g := rfl
  rw [h1] at h
  simp only [RunICP, h, bind, Except.bind]

theorem le_stopFrom (O : NumOracle K) (B A : Cloud K) (g : Option (Mat4 K))
    (tol : K) : ∀ f i, i ≤ stopFrom O B A g tol f i := by
  intro f
  induction f with
  | zero => intro i; exact le_refl i
  | succ f ih =>
    intro i
    by_cases hc : |prevErr O B A g i - iterMean O B A g (i + 1)| < tol
    · simp only [stopFrom, if_pos hc]
      omega
    · simp only [stopFrom, if_neg hc]
      exact le_trans (by omega) (ih (i + 1))

theorem lt_stopFrom (O : NumOracle K) (B A : Cloud K) (g : Option (Mat4 K))
    (tol : K) (f i : ℕ) (hf : 0 < f) : i < stopFrom O B A g tol f i := by
  rcases f with - | f
  · omega
  by_cases hc : |prevErr O B A g i - iterMean O B A g (i + 1)| < tol
  · simp only [stopFrom, if_pos hc]
    omega
  · simp only [stopFrom, if_neg hc]
    exact lt_of_lt_of_le (by omega) (le_stopFrom O B A g tol f (i + 1))

theorem stopFrom_le (O : NumOracle K) (B A : Cloud K) (g : Option (Mat4 K))
    (tol : K) : ∀ f i, stopFrom O B A g tol f i ≤ i + f := by
  intro f
  induction f with
  | zero => intro i; exact le_refl i
  | succ f ih =>
    intro i
    by_cases hc : |prevErr O B A g i - iterMean O B A g (i + 1)| < tol
    · simp only [stopFrom, if_pos hc]
      omega
    · simp only [stopFrom, if_neg hc]
      exact le_trans (ih (i + 1)) (by omega)

theorem stopFrom_minimal (O : NumOracle K) (B A : Cloud K) (g : Option (Mat4 K))
    (tol : K) : ∀ f i j, i < j → j < stopFrom O B A g tol f i →
      ¬ convAt O B A g tol j := by
  intro f
  induction f with
  | zero =>
    intro i j hij hj
    exact absurd (lt_trans hij hj) (lt_irrefl i)
  | succ f ih =>
    intro i j hij hj
    by_cases hc : |prevErr O B A g i - iterMean O B A g (i + 1)| < tol
    · simp only [stopFrom, if_pos hc] at hj
      omega
    · simp only [stopFrom, if_neg hc] at hj
      rcases Nat.lt_or_ge i.succ j with h | h
      · exact ih (i + 1) j h hj
      · have : j = i + 1 := by omega
        subst this
        simpa [convAt] using hc

theorem stopFrom_conv_or_max (O : NumOracle K) (B A : Cloud K)
    (g : Option (Mat4 K)) (tol : K) :
    ∀ f i, convAt O B A g tol (stopFrom O B A g tol f i)
      ∨ stopFrom O B A g tol f i = i + f := by
  intro f
  induction f with
  | zero => intro i; exact Or.inr rfl
  | succ f ih =>
    intro i
    by_cases hc : |prevErr O B A g i - iterMean O B A g (i + 1)| < tol
    · simp only [stopFrom, if_pos hc]
      exact Or.inl (by simpa [convAt] using hc)
    · simp only [stopFrom, if_neg hc]
      rcases ih (i + 1) with h | h
      · exact Or.inl h
      · exact Or.inr (by omega)

theorem icpLoop_iters_le (O : NumOracle K) (B : Cloud K) (tol : K) :
    ∀ fuel Ah p m iter r, icpLoop O B tol fuel Ah p m iter = .ok r →
      r.2.2 ≤ iter + fuel := by
  intro fuel
  induction fuel with
  | zero =>
    intro Ah p m iter r h
    simp only [icpLoop, Except.ok.injEq] at h
    rw [← h]
    simp
  | succ f ih =>
    intro Ah p m iter r h
    simp only [icpLoop, bind, Except.bind] at h
    by_cases hB : B.isEmpty
    · rw [FindNearestNeighbors, if_pos hB] at h
      simp at h
    · rw [FindNearestNeighbors, if_neg hB] at h
      dsimp only at h
      by_cases hc : |p - listMean (nnDists O (Ah.map proj3) B)| < tol
      · rw [if_pos hc] at h
        simp only [Except.ok.injEq] at h
        rw [← h]
        simp only []
        omega
      · rw [if_neg hc] at h
        have := ih _ _ _ _ _ h
        omega

/-- C1: for every pair of input clouds and every positive `max_iterations`,
the transform returned by `RunICP` is the one computed by a single fresh call
to `CalcLeastSquaresTransform` between the original, untouched input cloud `A`
and the final moved working copy of `A` (its position after the initial guess
and all incremental per-iteration transforms, `traceAh`), not an accumulated
product of the per-iteration transforms. -/
theorem C1_final_fresh_resolve (O : NumOracle K) (A B : Cloud K)
    (g : Option (Mat4 K)) (maxIter : ℤ) (tol : K) (hB : B ≠ [])
    (_hpos : 0 < maxIter) (X : Mat4 K) (e : K) (n : ℕ)
    (h : RunICP O A B g maxIter tol = .ok (X, e, n)) :
    X = CalcLeastSquaresTransform O A ((traceAh O B A g n).map proj3) := by
  rw [RunICP_eq O A B g maxIter tol hB] at h
  simp only [Except.ok.injEq, Prod.mk.injEq] at h
  obtain ⟨hX, he, hn⟩ := h
  subst hn
  exact hX.symm

/-- C6: with a positive budget, `RunICP` stops at the first iteration whose
error delta is below the tolerance; if no iteration converges it runs exactly
`max_iterations` iterations; the returned `num_iters` counts the iterations
actually executed and is at least `1`, and the returned error is the mean
error of the last executed iteration. -/
theorem C6_stopping_rule (O : NumOracle K) (A B : Cloud K) (g : Option (Mat4 K))
    (maxIter : ℤ) (tol : K) (hB : B ≠ []) (hpos : 0 < maxIter)
    (X : Mat4 K) (e : K) (n : ℕ)
    (h : RunICP O A B g maxIter tol = .ok (X, e, n)) :
    1 ≤ n ∧ (n : ℤ) ≤ maxIter ∧
      (∀ j, 1 ≤ j → j < n → ¬ convAt O B A g tol j) ∧
      (convAt O B A g tol n ∨ (n : ℤ) = maxIter) ∧
      e = iterMean O B A g n := by
  rw [RunICP_eq O A B g maxIter tol hB] at h
  simp only [Except.ok.injEq, Prod.mk.injEq] at h
  obtain ⟨hX, he, hn⟩ := h
  subst hn
  have hfuel : 0 < maxIter.toNat := by omega
  have h1 : 1 ≤ stopFrom O B A g tol maxIter.toNat 0 :=
    lt_stopFrom O B A g tol _ 0 hfuel
  have h2 : stopFrom O B A g tol maxIter.toNat 0 ≤ maxIter.toNat := by
    have := stopFrom_le O B A g tol maxIter.toNat 0
    omega
  refine ⟨h1, by omega, ?_, ?_, ?_⟩
  · intro j hj1 hjn
    exact stopFrom_minimal O B A g tol maxIter.toNat 0 j (by omega) hjn
  · rcases stopFrom_conv_or_max O B A g tol maxIter.toNat 0 with hcv | hmax
    · exact Or.inl hcv
    · right
      omega
  · rw [← he, prevErr, if_neg (by omega)]

/-- C10: `prev_error` starts at `0`, so the convergence test of iteration `1`
compares `|0 - mean_error|` with the tolerance: whenever the first-iteration
mean nearest-neighbor error is already below the tolerance, `RunICP` returns
after exactly one iteration, for every positive iteration budget. -/
theorem C10_first_iteration_convergence (O : NumOracle K) (A B : Cloud K)
    (g : Option (Mat4 K)) (maxIter : ℤ) (tol : K) (hB : B ≠ [])
    (hpos : 0 < maxIter) (hs : ∀ x : K, 0 ≤ x → 0 ≤ O.sqrt x)
    (hm : iterMean O B A g 1 < tol) (X : Mat4 K) (e : K) (n : ℕ)
    (h : RunICP O A B g maxIter tol = .ok (X, e, n)) : n = 1 := by
  have hm0 : 0 ≤ iterMean O B A g 1 := by
    apply div_nonneg
    · apply List.sum_nonneg
      intro x hx
      simp only [nnDists, List.mem_map] at hx
      obtain ⟨a, -, rfl⟩ := hx
      exact hs _ (sqDist_nonneg _ _)
    · positivity
  have hconv : |prevErr O B A g 0 - iterMean O B A g (0 + 1)| < tol := by
    rw [prevErr, if_pos rfl, zero_sub, abs_neg]
    simpa [abs_of_nonneg hm0] using hm
  rw [RunICP_eq O A B g maxIter tol hB] at h
  simp only [Except.ok.injEq, Prod.mk.injEq] at h
  obtain ⟨hX, he, hn⟩ := h
  obtain ⟨f, hf⟩ := Nat.exists_eq_succ_of_ne_zero (by omega : maxIter.toNat ≠ 0)
  rw [hf] at hn
  rw [← hn]
  simp only [stopFrom, if_pos hconv]

/-! ### The outer retry loop -/

theorem repeatLoop_runs_ge (O : NumOracle K) (A B : Cloud K) (thr : K)
    (maxTries maxIter : ℤ) (tol : K) :
    ∀ fuel runs guess r,
      repeatLoop O A B thr maxTries maxIter tol fuel runs guess = .ok r →
        runs + 1 ≤ r.2.2 := by
  intro fuel
  induction fuel with
  | zero =>
    intro runs guess r h
    simp only [repeatLoop, bind, Except.bind] at h
    rcases hrun : RunICP O A B guess maxIter tol with e | v
    · rw [hrun] at h
      simp at h
    · rw [hrun] at h
      obtain ⟨X, err, i⟩ := v
      simp only [Except.ok.injEq] at h
      rw [← h]
    | succ f ih =>
    intro runs guess r h
    simp only [repeatLoop, bind, Except.bind] at h
    rcases hrun : RunICP O A B guess maxIter tol with e | v
    · rw [hrun] at h
      simp at h
    · rw [hrun] at h
      obtain ⟨X, err, i⟩ := v
      dsimp only at h
      by_cases hc : err ≤ thr ∨ maxTries ≤ ((runs : ℤ) + 1)
      · rw [if_pos hc] at h
        simp only [Except.ok.injEq] at h
        rw [← h]
      · rw [if_neg hc] at h
        have := ih (runs + 1) _ _ h
        omega

theorem repeatLoop_runs_le (O : NumOracle K) (A B : Cloud K) (thr : K)
    (maxTries maxIter : ℤ) (tol : K) :
    ∀ fuel runs guess r,
      repeatLoop O A B thr maxTries maxIter tol fuel runs guess = .ok r →
        r.2.2 ≤ max (runs + 1) maxTries.toNat := by
  intro fuel
  induction fuel with
  | zero =>
    intro runs guess r h
    simp only [repeatLoop, bind, Except.bind] at h
    rcases hrun : RunICP O A B guess maxIter tol with e | v
    · rw [hrun] at h
      simp at h
    · rw [hrun] at h
      obtain ⟨X, err, i⟩ := v
      simp only [Except.ok.injEq] at h
      rw [← h]
      exact le_max_left _ _
  | succ f ih =>
    intro runs guess r h
    simp only [repeatLoop, bind, Except.bind] at h
    rcases hrun : RunICP O A B guess maxIter tol with e | v
    · rw [hrun] at h
      simp at h
    · rw [hrun] at h
      obtain ⟨X, err, i⟩ := v
      dsimp only at h
      by_cases hc : err ≤ thr ∨ maxTries ≤ ((runs : ℤ) + 1)
      · rw [if_pos hc] at h
        simp only [Except.ok.injEq] at h
        rw [← h]
        exact le_max_left _ _
      · rw [if_neg hc] at h
        push_neg at hc
        have h2 : runs + 2 ≤ maxTries.toNat := by omega
        have := ih (runs + 1) _ _ h
        have hmax : max (runs + 1 + 1) maxTries.toNat = maxTries.toNat :=
          Nat.max_eq_right h2
        rw [hmax] at this
        exact le_trans this (le_max_right _ _)

theorem repeatLoop_first_fit (O : NumOracle K) (A B : Cloud K) (thr : K)
    (maxTries maxIter : ℤ) (tol : K) (guess : Option (Mat4 K)) (X : Mat4 K)
    (e : K) (i : ℕ) (hrun : RunICP O A B guess maxIter tol = .ok (X, e, i))
    (he : e ≤ thr) :
    ∀ fuel runs,
      repeatLoop O A B thr maxTries maxIter tol fuel runs guess
        = .ok (X, e, runs + 1) := by
  intro fuel runs
  cases fuel with
  | zero => simp only [repeatLoop, bind, Except.bind, hrun]
  | succ f => simp only [repeatLoop, bind, Except.bind, hrun, if_pos (Or.inl he)]

/-- C5: with the spec's positive budgets, `RunICP` executes at most
`max_iterations` correspondence-and-solve iterations and
`RepeatICPUntilGoodFit` invokes `RunICP` at most `max_tries` times; both
loops are structurally total and terminate via these budgets. -/
theorem C5_budgets (O : NumOracle K) (A B : Cloud K) (g : Option (Mat4 K))
    (thr : K) (maxTries maxIter : ℤ) (tol : K)
    (hIter : 0 < maxIter) (hTries : 0 < maxTries) :
    (∀ r, RunICP O A B g maxIter tol = .ok r → (r.2.2 : ℤ) ≤ maxIter) ∧
    (∀ r, RepeatICPUntilGoodFit O A B thr maxTries g maxIter tol = .ok r →
      (r.2.2 : ℤ) ≤ maxTries) := by
  constructor
  · intro r h
    simp only [RunICP, bind, Except.bind] at h
    rcases hloop : icpLoop O B tol maxIter.toNat (initAh A g) 0 0 0 with e | v
    · rw [hloop] at h
      simp at h
    · rw [hloop] at h
      obtain ⟨Ah2, m2, n⟩ := v
      dsimp only at h
      simp only [Except.ok.injEq] at h
      have hle := icpLoop_iters_le O B tol maxIter.toNat (initAh A g) 0 0 0 _ hloop
      rw [← h]
      dsimp only
      simp only at hle
      omega
  · intro r h
    rw [RepeatICPUntilGoodFit] at h
    by_cases hentry : (100000000 : K) > thr
    · rw [if_pos hentry] at h
      have hle := repeatLoop_runs_le O A B thr maxTries maxIter tol
        maxTries.toNat 0 g r h
      have h1 : max (0 + 1) maxTries.toNat = maxTries.toNat :=
        Nat.max_eq_right (by omega)
      rw [h1] at hle
      omega
    · rw [if_neg hentry] at h
      simp only [Except.ok.injEq] at h
      rw [← h]
      simp only [Nat.cast_zero]
      omega

/-- C7 (amended): provided `error_threshold` is below the `1e8` sentinel that
initializes `mean_error`, `RepeatICPUntilGoodFit` performs at least one
complete `RunICP` invocation, returns immediately after any run whose
`mean_error` is at most the threshold, and its `num_runs` counts completed
runs — in particular `num_runs = 1` when the first run meets the threshold. -/
theorem C7_threshold_return (O : NumOracle K) (A B : Cloud K) (thr : K)
    (maxTries maxIter : ℤ) (tol : K) (g : Option (Mat4 K)) (X : Mat4 K) (e : K)
    (i : ℕ) (hthr : thr < 100000000)
    (hrun : RunICP O A B g maxIter tol = .ok (X, e, i)) :
    (∀ r, RepeatICPUntilGoodFit O A B thr maxTries g maxIter tol = .ok r →
      1 ≤ r.2.2) ∧
    (e ≤ thr → RepeatICPUntilGoodFit O A B thr maxTries g maxIter tol
      = .ok (X, e, 1)) := by
  have hentry : (100000000 : K) > thr := hthr
  constructor
  · intro r h
    rw [RepeatICPUntilGoodFit, if_pos hentry] at h
    exact repeatLoop_runs_ge O A B thr maxTries maxIter tol maxTries.toNat 0 g r h
  · intro he
    rw [RepeatICPUntilGoodFit, if_pos hentry]
    exact repeatLoop_first_fit O A B thr maxTries maxIter tol g X e i hrun he
      maxTries.toNat 0

/-- C9 (amended): non-positive budgets do not raise `InvalidArgument`:
`RunICP` with `max_iterations ≤ 0` executes zero iterations and returns
normally (final fresh solve against the guess-transformed copy, zero error,
zero iterations), and `RepeatICPUntilGoodFit` with `max_tries ≤ 0` (and a
threshold below the sentinel) completes exactly one run and returns its
result. -/
theorem C9_nonpositive_budgets (O : NumOracle K) (A B : Cloud K)
    (g : Option (Mat4 K)) (thr : K) (maxTries maxIter maxIter2 : ℤ)
    (tol tol2 : K) (X : Mat4 K) (e : K) (i : ℕ) :
    (maxIter ≤ 0 → RunICP O A B g maxIter tol
      = .ok (CalcLeastSquaresTransform O A ((initAh A g).map proj3), 0, 0)) ∧
    (maxTries ≤ 0 → thr < 100000000 →
      RunICP O A B g maxIter2 tol2 = .ok (X, e, i) →
      RepeatICPUntilGoodFit O A B thr maxTries g maxIter2 tol2
        = .ok (X, e, 1)) := by
  constructor
  · intro hmi
    have h0 : maxIter.toNat = 0 := by omega
    simp only [RunICP, h0, icpLoop, bind, Except.bind]
  · intro hmt hthr hrun
    have h0 : maxTries.toNat = 0 := by omega
    rw [RepeatICPUntilGoodFit, if_pos hthr, h0]
    simp only [repeatLoop, bind, Except.bind, hrun]

/-- C8: calling `FindNearestNeighbors` with an empty reference cloud `B`
fails with `InvalidArgument`, while an empty query cloud `A` with a nonempty
reference returns empty distance and index arrays without error. -/
theorem C8_degenerate_clouds (O : NumOracle K) (A B : Cloud K) (hB : B ≠ []) :
    FindNearestNeighbors O A ([] : Cloud K) = .error .invalidArgument ∧
    FindNearestNeighbors O ([] : Cloud K) B = .ok ([], []) := by
  constructor
  · rw [FindNearestNeighbors]
    simp
  · rw [FindNearestNeighbors, if_neg (by simp [hB])]
    simp [nnDists, nnIdxs]

/-! ### The rotation produced by the solver -/

theorem det3_eq_det (M : Mat3 K) : det3 M = M.det := by
  rw [Matrix.det_fin_three, det3]
  ring

theorem orth_det_mul_self {M : Mat3 K} (h : Mᵀ * M = 1) : M.det * M.det = 1 := by
  have h2 := congrArg Matrix.det h
  rwa [Matrix.det_mul, Matrix.det_transpose, Matrix.det_one] at h2

theorem negLastRow_eq (Vt : Mat3 K) :
    negLastRow Vt = Matrix.diagonal ![1, 1, -1] * Vt := by
  ext i j
  rw [Matrix.diagonal_mul, negLastRow, Matrix.updateRow_apply]
  fin_cases i <;> simp

theorem det_negLastRow (Vt : Mat3 K) : (negLastRow Vt).det = -Vt.det := by
  rw [negLastRow_eq, Matrix.det_mul]
  have hE : (Matrix.diagonal ![1, 1, -1] : Mat3 K).det = -1 := by
    rw [Matrix.det_diagonal]
    simp [Fin.prod_univ_three]
  rw [hE]
  ring

theorem refl3_mul_transpose :
    (Matrix.diagonal ![1, 1, (-1 : K)]) * (Matrix.diagonal ![1, 1, (-1 : K)])ᵀ
      = 1 := by
  rw [Matrix.diagonal_transpose, Matrix.diagonal_mul_diagonal]
  have h : (fun i => (![1, 1, (-1 : K)] : Fin 3 → K) i * ![1, 1, (-1 : K)] i)
      = fun _ => (1 : K) := by
    funext i
    fin_cases i <;> norm_num
  rw [h, Matrix.diagonal_one]

theorem negLastRow_mul_transpose {Vt : Mat3 K} (hV : Vt * Vtᵀ = 1) :
    negLastRow Vt * (negLastRow Vt)ᵀ = 1 := by
  rw [negLastRow_eq, Matrix.transpose_mul, Matrix.mul_assoc,
    ← Matrix.mul_assoc Vt, hV, Matrix.one_mul]
  exact refl3_mul_transpose

theorem orthT_sandwich {W U : Mat3 K} (hW : W * Wᵀ = 1) (hU : U * Uᵀ = 1) :
    (Wᵀ * Uᵀ)ᵀ * (Wᵀ * Uᵀ) = 1 := by
  rw [Matrix.transpose_mul, Matrix.transpose_transpose, Matrix.transpose_transpose,
    Matrix.mul_assoc, ← Matrix.mul_assoc W, hW, Matrix.one_mul, hU]

theorem kabschR_orth {U Vt : Mat3 K} (hU : Uᵀ * U = 1) (hV : Vtᵀ * Vt = 1) :
    (kabschR U Vt)ᵀ * kabschR U Vt = 1 := by
  have hU2 : U * Uᵀ = 1 := Matrix.mul_eq_one_comm.mp hU
  have hV2 : Vt * Vtᵀ = 1 := Matrix.mul_eq_one_comm.mp hV
  rw [kabschR]
  by_cases hneg : det3 (Vtᵀ * Uᵀ) < 0
  · rw [if_pos hneg]
    exact orthT_sandwich (negLastRow_mul_transpose hV2) hU2
  · rw [if_neg hneg]
    exact orthT_sandwich hV2 hU2

theorem kabschR_det_one {U Vt : Mat3 K} (hU : Uᵀ * U = 1) (hV : Vtᵀ * Vt = 1) :
    (kabschR U Vt).det = 1 := by
  have hdU := orth_det_mul_self hU
  have hdV := orth_det_mul_self hV
  have hprod : (Vtᵀ * Uᵀ).det = Vt.det * U.det := by
    rw [Matrix.det_mul, Matrix.det_transpose, Matrix.det_transpose]
  have hdd : Vt.det * U.det = 1 ∨ Vt.det * U.det = -1 := by
    apply mul_self_eq_one_iff.mp
    calc Vt.det * U.det * (Vt.det * U.det)
        = (Vt.det * Vt.det) * (U.det * U.det) := by ring
      _ = 1 := by rw [hdU, hdV, mul_one]
  rw [kabschR]
  by_cases hneg : det3 (Vtᵀ * Uᵀ) < 0
  · rw [if_pos hneg]
    rw [Matrix.det_mul, Matrix.det_transpose, det_negLastRow, Matrix.det_transpose]
    rw [det3_eq_det, hprod] at hneg
    rcases hdd with h1 | h1
    · linarith
    · rw [neg_mul, h1]
      norm_num
  · rw [if_neg hneg]
    rw [hprod]
    rw [det3_eq_det, hprod] at hneg
    rcases hdd with h1 | h1
    · exact h1
    · rw [h1] at hneg
      norm_num at hneg

/-- C3: for every input, the rotation block `R` of the transform returned by
`CalcLeastSquaresTransform` (given that the SVD primitive returns orthogonal
factors `U`, `Vt`) is a proper rotation with `det R = +1`, never `-1`: a
candidate `V * U.T` with negative determinant is corrected by negating the
last row of `Vt` and recomputing `R`, so no returned transform contains a
reflection. -/
theorem C3_proper_rotation (O : NumOracle K) (A B : Cloud K)
    (hU : (O.svd (covH A B)).1ᵀ * (O.svd (covH A B)).1 = 1)
    (hV : (O.svd (covH A B)).2.2ᵀ * (O.svd (covH A B)).2.2 = 1) :
    (rotOf (CalcLeastSquaresTransform O A B)).det = 1 := by
  rw [CalcLeastSquaresTransform]
  rw [rotOf_homog]
  exact kabschR_det_one hU hV

/-! ### Trace bounds over the orthogonal group -/

set_option maxHeartbeats 1600000 in
/-- Scalar core of the SO(3) trace bound `trace Q ≥ -1`: the entries of a
rotation matrix satisfy the three row-norm equations and the three diagonal
cofactor equations (`adjugate Q = Q.T` for a proper orthogonal `Q`), which
force `(3 - tr)(1 + tr) = ` a sum of squares `≥ 0` with `tr ≤ 3`. -/
theorem so3_trace_scalar {a b c d e f g h i : K}
    (hc0 : e * i - f * h = a) (hc1 : a * i - c * g = e) (hc2 : a * e - b * d = i)
    (hr0 : a * a + b * b + c * c = 1) (hr1 : d * d + e * e + f * f = 1)
    (hr2 : g * g + h * h + i * i = 1) : -1 ≤ a + e + i := by
  have hS : (h - f) ^ 2 + (c - g) ^ 2 + (d - b) ^ 2
      = (3 - (a + e + i)) * (1 + (a + e + i)) := by
    linear_combination hr0 + hr1 + hr2 + 2 * hc0 + 2 * hc1 + 2 * hc2
  have ha : a ≤ 1 := by nlinarith [sq_nonneg (a - 1), sq_nonneg b, sq_nonneg c]
  have he : e ≤ 1 := by nlinarith [sq_nonneg (e - 1), sq_nonneg d, sq_nonneg f]
  have hii : i ≤ 1 := by nlinarith [sq_nonneg (i - 1), sq_nonneg g, sq_nonneg h]
  by_contra hlt
  push_neg at hlt
  have h1 : 0 < 3 - (a + e + i) := by linarith
  have h2 : 1 + (a + e + i) < 0 := by linarith
  have h3 : (3 - (a + e + i)) * (1 + (a + e + i)) < 0 := mul_neg_of_pos_of_neg h1 h2
  have h4 : 0 ≤ (h - f) ^ 2 + (c - g) ^ 2 + (d - b) ^ 2 := by positivity
  linarith

theorem so3_trace_ge_neg_one {Q : Mat3 K} (horth : Qᵀ * Q = 1)
    (hdet : Q.det = 1) : -1 ≤ Matrix.trace Q := by
  have horth2 : Q * Qᵀ = 1 := Matrix.mul_eq_one_comm.mp horth
  have hadj : Q.adjugate = Qᵀ := by
    calc Q.adjugate = Q.adjugate * (Q * Qᵀ) := by rw [horth2, Matrix.mul_one]
      _ = (Q.adjugate * Q) * Qᵀ := by rw [Matrix.mul_assoc]
      _ = Qᵀ := by rw [Matrix.adjugate_mul, hdet, one_smul, Matrix.one_mul]
  rw [Matrix.adjugate_fin_three] at hadj
  have hc0 : Q 1 1 * Q 2 2 - Q 1 2 * Q 2 1 = Q 0 0 := by
    have h := congrFun (congrFun hadj 0) 0
    simpa using h
  have hc1 : Q 0 0 * Q 2 2 - Q 0 2 * Q 2 0 = Q 1 1 := by
    have h := congrFun (congrFun hadj 1) 1
    simpa using h
  have hc2 : Q 0 0 * Q 1 1 - Q 0 1 * Q 1 0 = Q 2 2 := by
    have h := congrFun (congrFun hadj 2) 2
    simpa using h
  clear hadj
  have hr0 : Q 0 0 * Q 0 0 + Q 0 1 * Q 0 1 + Q 0 2 * Q 0 2 = 1 := by
    have h := congrFun (congrFun horth2 0) 0
    simpa [Matrix.mul_apply, Fin.sum_univ_three, Matrix.one_apply,
      Matrix.transpose_apply] using h
  have hr1 : Q 1 0 * Q 1 0 + Q 1 1 * Q 1 1 + Q 1 2 * Q 1 2 = 1 := by
    have h := congrFun (congrFun horth2 1) 1
    simpa [Matrix.mul_apply, Fin.sum_univ_three, Matrix.one_apply,
      Matrix.transpose_apply] using h
  have hr2 : Q 2 0 * Q 2 0 + Q 2 1 * Q 2 1 + Q 2 2 * Q 2 2 = 1 := by
    have h := congrFun (congrFun horth2 2) 2
    simpa [Matrix.mul_apply, Fin.sum_univ_three, Matrix.one_apply,
      Matrix.transpose_apply] using h
  rw [Matrix.trace_fin_three]
  exact so3_trace_scalar hc0 hc1 hc2 hr0 hr1 hr2

theorem orth_entry_le_one {M : Mat3 K} (h : Mᵀ * M = 1) (i : Fin 3) :
    M i i ≤ 1 := by
  have h2 : M * Mᵀ = 1 := Matrix.mul_eq_one_comm.mp h
  have hrow : ∑ j, M i j * M i j = 1 := by
    have hh := congrFun (congrFun h2 i) i
    simpa [Matrix.mul_apply, Matrix.transpose_apply, Matrix.one_apply_eq] using hh
  have hle : M i i * M i i ≤ ∑ j, M i j * M i j :=
    Finset.single_le_sum (fun j (_ : j ∈ Finset.univ) => mul_self_nonneg (M i j))
      (Finset.mem_univ i)
  nlinarith [sq_nonneg (M i i - 1)]

theorem trace_mul_diagonal (M : Mat3 K) (S : Fin 3 → K) :
    Matrix.trace (M * Matrix.diagonal S) = ∑ i, M i i * S i := by
  simp [Matrix.trace, Matrix.diag, Matrix.mul_diagonal]

/-- Orthogonal `M`: `tr (M * diag S) ≤ S 0 + S 1 + S 2` for nonnegative `S`. -/
theorem trace_mul_diagonal_le {M : Mat3 K} (hM : Mᵀ * M = 1) {S : Fin 3 → K}
    (hS : ∀ i, 0 ≤ S i) :
    Matrix.trace (M * Matrix.diagonal S) ≤ S 0 + S 1 + S 2 := by
  rw [trace_mul_diagonal, Fin.sum_univ_three]
  have h0 : M 0 0 * S 0 ≤ 1 * S 0 :=
    mul_le_mul_of_nonneg_right (orth_entry_le_one hM 0) (hS 0)
  have h1 : M 1 1 * S 1 ≤ 1 * S 1 :=
    mul_le_mul_of_nonneg_right (orth_entry_le_one hM 1) (hS 1)
  have h2 : M 2 2 * S 2 ≤ 1 * S 2 :=
    mul_le_mul_of_nonneg_right (orth_entry_le_one hM 2) (hS 2)
  linarith

/-- Orthogonal `M` with `det M = -1`: `tr (M * diag S) ≤ S 0 + S 1 - S 2` for
nonnegative singular values in descending order. -/
theorem trace_mul_diagonal_le_flip {M : Mat3 K} (hM : Mᵀ * M = 1)
    (hdet : M.det = -1) {S : Fin 3 → K} (hS : ∀ i, 0 ≤ S i)
    (h10 : S 1 ≤ S 0) (h21 : S 2 ≤ S 1) :
    Matrix.trace (M * Matrix.diagonal S) ≤ S 0 + S 1 - S 2 := by
  have htr : Matrix.trace M ≤ 1 := by
    have horthN : (-M)ᵀ * (-M) = 1 := by
      rw [Matrix.transpose_neg, neg_mul_neg, hM]
    have hdetN : (-M).det = 1 := by
      rw [Matrix.det_neg, hdet]
      norm_num
    have := so3_trace_ge_neg_one horthN hdetN
    rw [Matrix.trace_neg] at this
    linarith
  rw [Matrix.trace_fin_three] at htr
  have h00 : M 0 0 ≤ 1 := orth_entry_le_one hM 0
  have h11 : M 1 1 ≤ 1 := orth_entry_le_one hM 1
  have e1 : M 0 0 * (S 0 - S 1) ≤ 1 * (S 0 - S 1) :=
    mul_le_mul_of_nonneg_right h00 (by linarith)
  have e2 : (M 0 0 + M 1 1) * (S 1 - S 2) ≤ 2 * (S 1 - S 2) :=
    mul_le_mul_of_nonneg_right (by linarith) (by linarith)
  have e3 : (M 0 0 + M 1 1 + M 2 2) * S 2 ≤ 1 * S 2 :=
    mul_le_mul_of_nonneg_right htr (hS 2)
  have key : M 0 0 * S 0 + M 1 1 * S 1 + M 2 2 * S 2
      = M 0 0 * (S 0 - S 1) + (M 0 0 + M 1 1) * (S 1 - S 2)
        + (M 0 0 + M 1 1 + M 2 2) * S 2 := by ring
  rw [trace_mul_diagonal, Fin.sum_univ_three, key]
  linarith

/-! ### Optimality of the solver (Kabsch) -/

theorem trace_rot_svd (Rc U Vt : Mat3 K) (S : Fin 3 → K) :
    Matrix.trace (Rc * (U * Matrix.diagonal S * Vt))
      = Matrix.trace ((Vt * Rc * U) * Matrix.diagonal S) := by
  rw [← Matrix.mul_assoc, Matrix.trace_mul_comm, ← Matrix.mul_assoc,
    ← Matrix.mul_assoc]

theorem sandwich_orth {U Vt Rc : Mat3 K} (hU : Uᵀ * U = 1) (hV : Vtᵀ * Vt = 1)
    (hRc : Rcᵀ * Rc = 1) : (Vt * Rc * U)ᵀ * (Vt * Rc * U) = 1 := by
  simp only [Matrix.transpose_mul, Matrix.mul_assoc]
  rw [← Matrix.mul_assoc Vtᵀ Vt, hV, Matrix.one_mul,
    ← Matrix.mul_assoc Rcᵀ Rc, hRc, Matrix.one_mul, hU]

theorem det_vtu_pm_one {U Vt : Mat3 K} (hU : Uᵀ * U = 1) (hV : Vtᵀ * Vt = 1) :
    Vt.det * U.det = 1 ∨ Vt.det * U.det = -1 := by
  apply mul_self_eq_one_iff.mp
  have hdU := orth_det_mul_self hU
  have hdV := orth_det_mul_self hV
  calc Vt.det * U.det * (Vt.det * U.det)
      = (Vt.det * Vt.det) * (U.det * U.det) := by ring
    _ = 1 := by rw [hdU, hdV, mul_one]

theorem trace_kabschR_eq_noflip {U Vt : Mat3 K} (S : Fin 3 → K)
    (hU : Uᵀ * U = 1) (hV2 : Vt * Vtᵀ = 1) :
    Matrix.trace ((Vtᵀ * Uᵀ) * (U * Matrix.diagonal S * Vt))
      = Matrix.trace (Matrix.diagonal S) := by
  simp only [Matrix.mul_assoc]
  rw [← Matrix.mul_assoc Uᵀ U, hU, Matrix.one_mul, Matrix.trace_mul_comm,
    Matrix.mul_assoc, hV2, Matrix.mul_one]

theorem trace_kabschR_eq_flip {U Vt : Mat3 K} (S : Fin 3 → K)
    (hU : Uᵀ * U = 1) (hV2 : Vt * Vtᵀ = 1) :
    Matrix.trace (((negLastRow Vt)ᵀ * Uᵀ) * (U * Matrix.diagonal S * Vt))
      = S 0 + S 1 - S 2 := by
  rw [negLastRow_eq, Matrix.transpose_mul, Matrix.diagonal_transpose]
  simp only [Matrix.mul_assoc]
  rw [← Matrix.mul_assoc Uᵀ U, hU, Matrix.one_mul, Matrix.trace_mul_comm]
  simp only [Matrix.mul_assoc]
  rw [hV2, Matrix.mul_one, Matrix.diagonal_mul_diagonal, Matrix.trace_diagonal,
    Fin.sum_univ_three]
  simp
  ring

/-- The solver's rotation maximizes `trace (R * H)` over all proper rotations,
for `H = U * diag S * Vt` a valid SVD. -/
theorem trace_kabschR_ge {U Vt : Mat3 K} {S : Fin 3 → K}
    (hU : Uᵀ * U = 1) (hV : Vtᵀ * Vt = 1) (hS : ∀ i, 0 ≤ S i)
    (h10 : S 1 ≤ S 0) (h21 : S 2 ≤ S 1) (Rc : Mat3 K)
    (hRc : Rcᵀ * Rc = 1) (hdRc : Rc.det = 1) :
    Matrix.trace (Rc * (U * Matrix.diagonal S * Vt))
      ≤ Matrix.trace (kabschR U Vt * (U * Matrix.diagonal S * Vt)) := by
  have hV2 : Vt * Vtᵀ = 1 := Matrix.mul_eq_one_comm.mp hV
  have hcomp : Matrix.trace (Rc * (U * Matrix.diagonal S * Vt))
      = Matrix.trace ((Vt * Rc * U) * Matrix.diagonal S) :=
    trace_rot_svd Rc U Vt S
  have hMorth : (Vt * Rc * U)ᵀ * (Vt * Rc * U) = 1 := sandwich_orth hU hV hRc
  rw [kabschR]
  by_cases hneg : det3 (Vtᵀ * Uᵀ) < 0
  · rw [if_pos hneg, trace_kabschR_eq_flip S hU hV2, hcomp]
    have hprod : (Vtᵀ * Uᵀ).det = Vt.det * U.det := by
      rw [Matrix.det_mul, Matrix.det_transpose, Matrix.det_transpose]
    rw [det3_eq_det, hprod] at hneg
    have hd : Vt.det * U.det = -1 := by
      rcases det_vtu_pm_one hU hV with h1 | h1
      · linarith
      · exact h1
    have hdM : (Vt * Rc * U).det = -1 := by
      rw [Matrix.det_mul, Matrix.det_mul, hdRc, mul_one]
      exact hd
    exact trace_mul_diagonal_le_flip hMorth hdM hS h10 h21
  · rw [if_neg hneg, trace_kabschR_eq_noflip S hU hV2, hcomp,
      Matrix.trace_diagonal, Fin.sum_univ_three]
    exact trace_mul_diagonal_le hMorth hS

theorem sqNorm_eq_dot (v : Vec3 K) : sqNorm v = v ⬝ᵥ v := by
  simp [sqNorm, dotProduct, pow_two]

theorem sqNorm_add (u v : Vec3 K) :
    sqNorm (u + v) = sqNorm u + 2 * (u ⬝ᵥ v) + sqNorm v := by
  simp only [sqNorm, dotProduct, Fin.sum_univ_three, Pi.add_apply]
  ring

theorem sqNorm_sub (u v : Vec3 K) :
    sqNorm (u - v) = sqNorm u - 2 * (u ⬝ᵥ v) + sqNorm v := by
  simp only [sqNorm, dotProduct, Fin.sum_univ_three, Pi.sub_apply]
  ring

theorem sqNorm_nonneg (v : Vec3 K) : 0 ≤ sqNorm v := by
  unfold sqNorm
  positivity

theorem dotProduct_mulVec_orth {R : Mat3 K} (h : Rᵀ * R = 1) (x y : Vec3 K) :
    (R *ᵥ x) ⬝ᵥ (R *ᵥ y) = x ⬝ᵥ y := by
  rw [Matrix.dotProduct_mulVec, ← Matrix.mulVec_transpose,
    Matrix.mulVec_mulVec, h, Matrix.one_mulVec]

theorem mulVec_dot_eq_trace (R : Mat3 K) (x y : Vec3 K) :
    (R *ᵥ x) ⬝ᵥ y = Matrix.trace (R * vecMulVec x y) := by
  simp only [Matrix.trace, Matrix.diag, Matrix.mul_apply,
    Matrix.vecMulVec_apply, Matrix.mulVec, dotProduct, Fin.sum_univ_three]
  ring

theorem sum_map_sub_const (l : Cloud K) (v : Vec3 K) :
    (l.map (· - v)).sum = l.sum - (l.length : K) • v := by
  induction l with
  | nil => simp
  | cons x xs ih =>
    simp only [List.map_cons, List.sum_cons, List.length_cons, ih]
    funext i
    simp only [Pi.add_apply, Pi.sub_apply, Pi.smul_apply, smul_eq_mul]
    push_cast
    ring

theorem sum_centered_eq_zero (l : Cloud K) (hl : l ≠ []) :
    (l.map (· - centroid l)).sum = 0 := by
  rw [sum_map_sub_const, centroid]
  have hn : (l.length : K) ≠ 0 :=
    Nat.cast_ne_zero.mpr (List.length_pos.mpr hl).ne'
  rw [smul_smul, mul_inv_cancel₀ hn, one_smul, sub_self]

theorem ssd_pointwise {R : Mat3 K} (hR : Rᵀ * R = 1) (t cA cB a b : Vec3 K) :
    sqNorm (R *ᵥ a + t - b)
      = sqNorm (a - cA) + sqNorm (b - cB)
        + sqNorm (R *ᵥ cA + t - cB)
        - 2 * Matrix.trace (R * vecMulVec (a - cA) (b - cB))
        + 2 * ((R *ᵥ (a - cA) - (b - cB)) ⬝ᵥ (R *ᵥ cA + t - cB)) := by
  have h1 : R *ᵥ a + t - b
      = (R *ᵥ (a - cA) - (b - cB)) + (R *ᵥ cA + t - cB) := by
    rw [Matrix.mulVec_sub]
    funext i
    simp only [Pi.add_apply, Pi.sub_apply]
    ring
  have h2 : sqNorm (R *ᵥ (a - cA) - (b - cB))
      = sqNorm (a - cA)
        - 2 * Matrix.trace (R * vecMulVec (a - cA) (b - cB))
        + sqNorm (b - cB) := by
    rw [sqNorm_sub, mulVec_dot_eq_trace, sqNorm_eq_dot (R *ᵥ (a - cA)),
      dotProduct_mulVec_orth hR, ← sqNorm_eq_dot]
  rw [h1, sqNorm_add, h2]
  ring

theorem ssd_decomp_general {R : Mat3 K} (hR : Rᵀ * R = 1) (t cA cB : Vec3 K) :
    ∀ A B : Cloud K, A.length = B.length →
      (List.zipWith (fun a b => sqNorm (R *ᵥ a + t - b)) A B).sum
        = (A.map (fun p => sqNorm (p - cA))).sum
          + (B.map (fun p => sqNorm (p - cB))).sum
          + (A.length : K) * sqNorm (R *ᵥ cA + t - cB)
          - 2 * Matrix.trace
              (R * (List.zipWith (fun a b => vecMulVec (a - cA) (b - cB)) A B).sum)
          + 2 * ((R *ᵥ ((A.map (· - cA)).sum) - (B.map (· - cB)).sum)
              ⬝ᵥ (R *ᵥ cA + t - cB)) := by
  intro A
  induction A with
  | nil =>
    intro B hlen
    have hB : B = [] := List.length_eq_zero.mp hlen.symm
    subst hB
    simp [Matrix.mulVec_zero]
  | cons a A ih =>
    intro B hlen
    rcases B with - | ⟨b, B⟩
    · simp at hlen
    · have hlen2 : A.length = B.length := by simpa using hlen
      simp only [List.zipWith_cons_cons, List.sum_cons, List.map_cons,
        List.length_cons]
      rw [ih B hlen2, ssd_pointwise hR t cA cB a b]
      rw [Matrix.mul_add, Matrix.trace_add, Matrix.mulVec_add]
      have hvec : (R *ᵥ (a - cA) + R *ᵥ (A.map (· - cA)).sum)
            - ((b - cB) + (B.map (· - cB)).sum)
          = (R *ᵥ (a - cA) - (b - cB))
            + (R *ᵥ (A.map (· - cA)).sum - (B.map (· - cB)).sum) := by
        abel
      rw [hvec, add_dotProduct]
      push_cast
      ring

theorem ssd_decomp {R : Mat3 K} (t : Vec3 K) (A B : Cloud K) (hR : Rᵀ * R = 1)
    (hlen : A.length = B.length) (hA : A ≠ []) :
    ssd R t A B
      = (A.map (fun p => sqNorm (p - centroid A))).sum
        + (B.map (fun p => sqNorm (p - centroid B))).sum
        + (A.length : K) * sqNorm (R *ᵥ centroid A + t - centroid B)
        - 2 * Matrix.trace (R * covH A B) := by
  have hB : B ≠ [] := by
    intro hB0
    subst hB0
    simp only [List.length_nil] at hlen
    exact hA (List.length_eq_zero.mp hlen)
  have h := ssd_decomp_general hR t (centroid A) (centroid B) A B hlen
  rw [ssd, h, sum_centered_eq_zero A hA, sum_centered_eq_zero B hB]
  simp [covH, Matrix.mulVec_zero]

/-- C2: for equal-length non-empty corresponding point sets `A`, `B` and a
valid SVD of the cross-covariance `H`, `CalcLeastSquaresTransform` returns the
4x4 homogeneous assembly of the corrected rotation `R` (from `H = U S Vt`,
`R = V Ut` with reflection correction) and the translation
`t = centroid_B - R centroid_A`, and this transform minimizes the sum of
squared residuals over all rigid transforms. -/
theorem C2_least_squares_transform (O : NumOracle K) (A B : Cloud K)
    (hlen : A.length = B.length) (hA : A ≠ [])
    (hsvd : ValidSVD (covH A B) (O.svd (covH A B)).1 (O.svd (covH A B)).2.1
      (O.svd (covH A B)).2.2) :
    CalcLeastSquaresTransform O A B
        = homog (rotOf (CalcLeastSquaresTransform O A B))
            (transOf (CalcLeastSquaresTransform O A B)) ∧
    transOf (CalcLeastSquaresTransform O A B)
        = centroid B - rotOf (CalcLeastSquaresTransform O A B) *ᵥ centroid A ∧
    IsRot (rotOf (CalcLeastSquaresTransform O A B)) ∧
    ∀ R2 t2, IsRot R2 →
      ssd (rotOf (CalcLeastSquaresTransform O A B))
          (transOf (CalcLeastSquaresTransform O A B)) A B
        ≤ ssd R2 t2 A B := by
  obtain ⟨hH, hU, hV, hS, h10, h21⟩ := hsvd
  have hrot : rotOf (CalcLeastSquaresTransform O A B)
      = kabschR (O.svd (covH A B)).1 (O.svd (covH A B)).2.2 := by
    rw [CalcLeastSquaresTransform, rotOf_homog]
  have htr : transOf (CalcLeastSquaresTransform O A B)
      = centroid B
        - kabschR (O.svd (covH A B)).1 (O.svd (covH A B)).2.2 *ᵥ centroid A := by
    rw [CalcLeastSquaresTransform, transOf_homog]
  have horth := kabschR_orth hU hV
  have hdet := kabschR_det_one hU hV
  refine ⟨?_, ?_, ?_, ?_⟩
  · rw [hrot, htr, CalcLeastSquaresTransform]
  · rw [hrot, htr]
  · rw [hrot]
    exact ⟨horth, hdet⟩
  · intro R2 t2 hR2
    rw [hrot, htr]
    have h1 := ssd_decomp
      (centroid B - kabschR (O.svd (covH A B)).1 (O.svd (covH A B)).2.2 *ᵥ centroid A)
      A B horth hlen hA
    have h2 := ssd_decomp t2 A B hR2.1 hlen hA
    have hw : kabschR (O.svd (covH A B)).1 (O.svd (covH A B)).2.2 *ᵥ centroid A
        + (centroid B
          - kabschR (O.svd (covH A B)).1 (O.svd (covH A B)).2.2 *ᵥ centroid A)
        - centroid B = 0 := by
      funext i
      simp only [Pi.add_apply, Pi.sub_apply, Pi.zero_apply]
      ring
    rw [hw] at h1
    have hz : sqNorm (0 : Vec3 K) = 0 := by simp [sqNorm]
    rw [hz, mul_zero] at h1
    have htrace := trace_kabschR_ge hU hV hS h10 h21 R2 hR2.1 hR2.2
    rw [← hH] at htrace
    have hwn : 0 ≤ (A.length : K)
        * sqNorm (R2 *ᵥ centroid A + t2 - centroid B) := by
      apply mul_nonneg
      · positivity
      · exact sqNorm_nonneg _
    rw [h1, h2]
    linarith

/-! ### Identity recovery: the solver on a cloud against itself -/

theorem zipWith_same {α β : Type} (f : α → α → β) :
    ∀ l : List α, List.zipWith f l l = l.map fun a => f a a := by
  intro l
  induction l with
  | nil => rfl
  | cons x xs ih => simp [ih]

theorem covH_self (C : Cloud K) :
    covH C C
      = (C.map fun p => vecMulVec (p - centroid C) (p - centroid C)).sum := by
  rw [covH, zipWith_same]

theorem list_sum_transpose (l : List (Mat3 K)) :
    (l.sum)ᵀ = (l.map Matrix.transpose).sum := by
  induction l with
  | nil => simp
  | cons x xs ih => simp [Matrix.transpose_add, ih]

theorem covH_self_symm (C : Cloud K) : (covH C C)ᵀ = covH C C := by
  rw [covH_self, list_sum_transpose, List.map_map]
  congr 1
  apply List.map_congr_left
  intro a _
  simp only [Function.comp_apply]
  ext i j
  simp only [Matrix.transpose_apply, Matrix.vecMulVec_apply]
  ring

theorem list_sum_mulVec (l : List (Mat3 K)) (x : Vec3 K) :
    (l.sum) *ᵥ x = (l.map (· *ᵥ x)).sum := by
  induction l with
  | nil => simp [Matrix.zero_mulVec]
  | cons y ys ih => simp [Matrix.add_mulVec, ih]

theorem dotProduct_list_sum (x : Vec3 K) (l : List (Vec3 K)) :
    x ⬝ᵥ l.sum = (l.map (x ⬝ᵥ ·)).sum := by
  induction l with
  | nil => simp
  | cons y ys ih => simp [dotProduct_add, ih]

theorem vecMulVec_mulVec_self (v x : Vec3 K) :
    vecMulVec v v *ᵥ x = (v ⬝ᵥ x) • v := by
  funext j
  simp only [Matrix.mulVec, Matrix.vecMulVec_apply, dotProduct, Pi.smul_apply,
    smul_eq_mul, Fin.sum_univ_three]
  ring

theorem covH_self_psd (C : Cloud K) (x : Vec3 K) :
    0 ≤ x ⬝ᵥ (covH C C *ᵥ x) := by
  rw [covH_self, list_sum_mulVec, List.map_map, dotProduct_list_sum,
    List.map_map]
  apply List.sum_nonneg
  intro y hy
  simp only [List.mem_map, Function.comp_apply] at hy
  obtain ⟨p, -, rfl⟩ := hy
  rw [vecMulVec_mulVec_self, dotProduct_smul, smul_eq_mul,
    dotProduct_comm]
  exact mul_self_nonneg _

theorem dotProduct_self_nonneg (v : Vec3 K) : 0 ≤ v ⬝ᵥ v :=
  Finset.sum_nonneg fun i _ => mul_self_nonneg (v i)

/-- For a symmetric positive-semidefinite invertible `H`, every valid SVD has
`U = V` (columns agree on nonzero singular values, and all are nonzero), so
the candidate rotation `Vt.T @ U.T` is the identity. -/
theorem svd_self_candidate_eq_one {H U : Mat3 K} {S : Fin 3 → K} {Vt : Mat3 K}
    (hH : H = U * Matrix.diagonal S * Vt) (hU : Uᵀ * U = 1) (hV : Vtᵀ * Vt = 1)
    (hsymm : Hᵀ = H) (hpsd : ∀ x, 0 ≤ x ⬝ᵥ (H *ᵥ x)) (hSnn : ∀ i, 0 ≤ S i)
    (hdet : H.det ≠ 0) : Vtᵀ * Uᵀ = 1 := by
  have hV2 : Vt * Vtᵀ = 1 := Matrix.mul_eq_one_comm.mp hV
  have hSne : ∀ i, S i ≠ 0 := by
    intro i hSi
    apply hdet
    rw [hH, Matrix.det_mul, Matrix.det_mul, Matrix.det_diagonal]
    have hz : ∏ j, S j = 0 := Finset.prod_eq_zero (Finset.mem_univ i) hSi
    rw [hz]
    ring
  have hHV : H * Vtᵀ = U * Matrix.diagonal S := by
    rw [hH, Matrix.mul_assoc, hV2, Matrix.mul_one]
  have hHt : Hᵀ = Vtᵀ * Matrix.diagonal S * Uᵀ := by
    rw [hH, Matrix.transpose_mul, Matrix.transpose_mul,
      Matrix.diagonal_transpose, ← Matrix.mul_assoc]
  have hHU : H * U = Vtᵀ * Matrix.diagonal S := by
    rw [← hsymm, hHt, Matrix.mul_assoc, hU, Matrix.mul_one]
  have hcols : ∀ i j, U j i = Vtᵀ j i := by
    intro i
    have hv : H *ᵥ (fun k => Vtᵀ k i) = S i • fun j => U j i := by
      funext j
      have h1 := congrFun (congrFun hHV j) i
      rw [Matrix.mul_diagonal] at h1
      simp only [Matrix.mul_apply] at h1
      simp only [Matrix.mulVec, dotProduct, Pi.smul_apply, smul_eq_mul]
      rw [h1]
      ring
    have hu : H *ᵥ (fun k => U k i) = S i • fun j => Vtᵀ j i := by
      funext j
      have h1 := congrFun (congrFun hHU j) i
      rw [Matrix.mul_diagonal] at h1
      simp only [Matrix.mul_apply] at h1
      simp only [Matrix.mulVec, dotProduct, Pi.smul_apply, smul_eq_mul]
      rw [h1]
      ring
    have hw : H *ᵥ ((fun k => U k i) - fun k => Vtᵀ k i)
        = (-S i) • ((fun k => U k i) - fun k => Vtᵀ k i) := by
      rw [Matrix.mulVec_sub, hu, hv]
      funext j
      simp only [Pi.sub_apply, Pi.smul_apply, smul_eq_mul]
      ring
    have hpsd2 := hpsd ((fun k => U k i) - fun k => Vtᵀ k i)
    rw [hw, dotProduct_smul, smul_eq_mul] at hpsd2
    have hSpos : 0 < S i := lt_of_le_of_ne (hSnn i) (Ne.symm (hSne i))
    have hdot0 : ((fun k => U k i) - fun k => Vtᵀ k i)
        ⬝ᵥ ((fun k => U k i) - fun k => Vtᵀ k i) = 0 := by
      have hnn := dotProduct_self_nonneg ((fun k => U k i) - fun k => Vtᵀ k i)
      nlinarith
    have hzero := Matrix.dotProduct_self_eq_zero.mp hdot0
    intro j
    have := congrFun hzero j
    simp only [Pi.sub_apply, Pi.zero_apply] at this
    linarith
  have hUV : U = Vtᵀ := by
    ext j i
    exact hcols i j
  rw [hUV, Matrix.transpose_transpose, hV]

theorem calcLST_self_eq_one (O : NumOracle K) (C : Cloud K)
    (hsvd : ValidSVD (covH C C) (O.svd (covH C C)).1 (O.svd (covH C C)).2.1
      (O.svd (covH C C)).2.2)
    (hdet : (covH C C).det ≠ 0) :
    CalcLeastSquaresTransform O C C = 1 := by
  obtain ⟨hH, hU, hV, hS, -, -⟩ := hsvd
  have hone : (O.svd (covH C C)).2.2ᵀ * (O.svd (covH C C)).1ᵀ = 1 :=
    svd_self_candidate_eq_one hH hU hV (covH_self_symm C) (covH_self_psd C)
      hS hdet
  have hkab : kabschR (O.svd (covH C C)).1 (O.svd (covH C C)).2.2 = 1 := by
    rw [kabschR]
    rw [hone]
    have h1 : det3 (1 : Mat3 K) = 1 := by rw [det3_eq_det, Matrix.det_one]
    rw [h1, if_neg (by norm_num)]
  rw [CalcLeastSquaresTransform, hkab, Matrix.one_mulVec, sub_self,
    homog_one_zero]

/-- C4: for every non-degenerate cloud `X` (invertible self cross-covariance)
and every positive tolerance, `RunICP(X, X)` with the default identity
initial guess returns the identity transform, mean error `0`, and one
iteration. -/
theorem C4_identity_recovery (O : NumOracle K) (X : Cloud K) (maxIter : ℤ)
    (tol : K) (hX : X ≠ []) (hsq : O.sqrt 0 = 0) (htol : 0 < tol)
    (hiter : 0 < maxIter)
    (hsvd : ValidSVD (covH X X) (O.svd (covH X X)).1 (O.svd (covH X X)).2.1
      (O.svd (covH X X)).2.2)
    (hdet : (covH X X).det ≠ 0) :
    RunICP O X X none maxIter tol = .ok (1, 0, 1) := by
  have hcalc : CalcLeastSquaresTransform O X X = 1 :=
    calcLST_self_eq_one O X hsvd hdet
  have hproj0 : (traceAh O X X none 0).map proj3 = X := map_proj3_map_hom X
  have hdists : nnDists O X X = X.map fun _ => 0 := by
    rw [nnDists]
    apply List.map_congr_left
    intro a ha
    rw [nnPoint_self ha, sqDist_self, hsq]
  have hmean : listMean (nnDists O X X) = 0 := by
    rw [hdists, listMean]
    have hz : (X.map fun _ => (0 : K)).sum = 0 := by
      apply List.sum_eq_zero
      intro x hx
      simp only [List.mem_map] at hx
      obtain ⟨-, -, h⟩ := hx
      exact h.symm
    rw [hz, zero_div]
  have hcorr : corrCloud X (nnIdxs X X) = X := by
    rw [corrCloud, nnIdxs, List.map_map]
    calc X.map ((fun i => X.getD i 0) ∘ nnIdx X)
        = X.map id := List.map_congr_left fun a ha => nnPoint_self ha
      _ = X := List.map_id X
  have hT : icpT O X X = 1 := by
    rw [icpT, hcorr, hcalc]
  have htrace1 : traceAh O X X none 1 = traceAh O X X none 0 := by
    show icpStep O X (traceAh O X X none 0) = traceAh O X X none 0
    rw [icpStep, hproj0, hT]
    simp [Matrix.one_mulVec]
  have hiter1 : iterMean O X X none 1 = 0 := by
    show listMean (nnDists O ((traceAh O X X none 0).map proj3) X) = 0
    rw [hproj0, hmean]
  have hconv : |prevErr O X X none 0 - iterMean O X X none (0 + 1)| < tol := by
    have hp0 : prevErr O X X none 0 = 0 := rfl
    have h01 : iterMean O X X none (0 + 1) = 0 := hiter1
    rw [hp0, h01]
    simpa using htol
  have hN : stopFrom O X X none tol maxIter.toNat 0 = 1 := by
    obtain ⟨f, hf⟩ :=
      Nat.exists_eq_succ_of_ne_zero (show maxIter.toNat ≠ 0 by omega)
    rw [hf]
    simp only [stopFrom, if_pos hconv]
  rw [RunICP_eq O X X none maxIter tol hX, hN, htrace1, hproj0, hcalc]
  have hp1 : prevErr O X X none 1 = 0 := by
    rw [prevErr, if_neg (by norm_num), hiter1]
  rw [hp1]

/-! ### Concrete witnesses and counterexamples -/

set_option maxRecDepth 100000

/-- Witness for C1 at a concrete cloud and oracle: the returned transform is
the fresh final solve against the moved working copy. -/
theorem C1_witness :
    (1 : Mat4 ℚ) = CalcLeastSquaresTransform testOracle testCloud
      ((traceAh testOracle testCloud testCloud none 1).map proj3) :=
  C1_final_fresh_resolve testOracle testCloud testCloud none 20 (1 / 1000)
    (by with_unfolding_all decide) (by decide) 1 0 1
    (by with_unfolding_all decide)

/-- Witness for C2: the solver's transform beats the rigid competitor
`(identity, 0)` on the test instance. -/
theorem C2_witness :
    ssd (rotOf (CalcLeastSquaresTransform testOracle testCloud testCloud))
      (transOf (CalcLeastSquaresTransform testOracle testCloud testCloud))
      testCloud testCloud
    ≤ ssd 1 0 testCloud testCloud :=
  (C2_least_squares_transform testOracle testCloud testCloud rfl
      (by with_unfolding_all decide) (by with_unfolding_all decide)).2.2.2
    1 0 ⟨by simp, Matrix.det_one⟩

/-- Witness for C3, through the reflection branch: the oracle answers with a
mirrored `Vt`, and the corrected rotation still has determinant `+1`. -/
theorem C3_witness :
    (rotOf (CalcLeastSquaresTransform flipOracle ptA ptB)).det = 1 :=
  C3_proper_rotation flipOracle ptA ptB (by with_unfolding_all decide)
    (by with_unfolding_all decide)

/-- Witness for C4: ICP run on the test cloud against itself returns the
identity, zero error and one iteration. -/
theorem C4_witness :
    RunICP testOracle testCloud testCloud none 20 (1 / 1000)
      = .ok (1, 0, 1) :=
  C4_identity_recovery testOracle testCloud 20 (1 / 1000)
    (by with_unfolding_all decide) rfl (by norm_num) (by decide)
    (by with_unfolding_all decide) (by with_unfolding_all decide)

/-- Witness for C5: both budget bounds at a concrete run. -/
theorem C5_witness : ((1 : ℕ) : ℤ) ≤ 20 ∧ ((1 : ℕ) : ℤ) ≤ 5 :=
  ⟨(C5_budgets testOracle testCloud testCloud none 1 5 20 (1 / 1000)
      (by decide) (by decide)).1 (1, 0, 1) (by with_unfolding_all decide),
    (C5_budgets testOracle testCloud testCloud none 1 5 20 (1 / 1000)
      (by decide) (by decide)).2 (1, 0, 1) (by with_unfolding_all decide)⟩

/-- Witness for C6: the concrete run stops by convergence or by exhausting
the budget. -/
theorem C6_witness :
    convAt testOracle testCloud testCloud none (1 / 1000) 1
      ∨ ((1 : ℕ) : ℤ) = 20 :=
  (C6_stopping_rule testOracle testCloud testCloud none 20 (1 / 1000)
      (by with_unfolding_all decide) (by decide) 1 0 1
      (by with_unfolding_all decide)).2.2.2.1

/-- Counterexample for C7 as stated: with `error_threshold = 1e8` (the
sentinel initializing `mean_error`), the `while` loop is never entered and
`RepeatICPUntilGoodFit` returns with `num_runs = 0` — it does not always
perform at least one `RunICP` invocation. -/
theorem C7_counterexample :
    RepeatICPUntilGoodFit testOracle testCloud testCloud 100000000 5 none 20
      (1 / 1000) = .ok (1, 100000000, 0) := by
  rw [RepeatICPUntilGoodFit, if_neg (by norm_num)]

/-- Witness for the amended C7: below the sentinel, a first run meeting the
threshold makes the outer loop return that run's result with `num_runs = 1`. -/
theorem C7_witness :
    RepeatICPUntilGoodFit testOracle testCloud testCloud 1 5 none 20 (1 / 1000)
      = .ok (1, 0, 1) :=
  (C7_threshold_return testOracle testCloud testCloud 1 5 20 (1 / 1000) none
      1 0 1 (by norm_num) (by with_unfolding_all decide)).2 (by norm_num)

/-- Counterexample for C9 as stated: non-positive budgets do not raise
`InvalidArgument`; both calls return ordinary results. -/
theorem C9_counterexample :
    RunICP testOracle testCloud testCloud none 0 (1 / 1000) = .ok (1, 0, 0)
      ∧ RepeatICPUntilGoodFit testOracle testCloud testCloud 1 0 none 20
        (1 / 1000) = .ok (1, 0, 1) :=
  ⟨by with_unfolding_all decide, by with_unfolding_all decide⟩

/-- Witness for the amended C9 at concrete non-positive budgets. -/
theorem C9_witness :
    RunICP testOracle testCloud testCloud none (-3) (1 / 1000)
        = .ok (CalcLeastSquaresTransform testOracle testCloud
            ((initAh testCloud none).map proj3), 0, 0)
      ∧ RepeatICPUntilGoodFit testOracle testCloud testCloud 1 (-2) none 20
        (1 / 1000) = .ok (1, 0, 1) :=
  ⟨(C9_nonpositive_budgets testOracle testCloud testCloud none 1 (-2) (-3) 20
        (1 / 1000) (1 / 1000) 1 0 1).1 (by decide),
    (C9_nonpositive_budgets testOracle testCloud testCloud none 1 (-2) (-3) 20
        (1 / 1000) (1 / 1000) 1 0 1).2 (by decide) (by norm_num)
      (by with_unfolding_all decide)⟩

/-- Witness for C8 at a concrete nonempty cloud. -/
theorem C8_witness :
    FindNearestNeighbors testOracle testCloud ([] : Cloud ℚ)
        = .error .invalidArgument
      ∧ FindNearestNeighbors testOracle ([] : Cloud ℚ) testCloud
        = .ok ([], []) :=
  C8_degenerate_clouds testOracle testCloud testCloud
    (by with_unfolding_all decide)

/-- Witness for C10: the test instance's first-iteration mean error is below
the tolerance, so the run stops after exactly one iteration even with a
budget of 20. -/
theorem C10_witness :
    iterMean testOracle testCloud testCloud none 1 < 1 / 1000 ∧ (1 : ℕ) = 1 :=
  ⟨by with_unfolding_all decide,
    C10_first_iteration_convergence testOracle testCloud testCloud none 20
      (1 / 1000) (by with_unfolding_all decide) (by decide) (fun x hx => hx)
      (by with_unfolding_all decide) 1 0 1 (by with_unfolding_all decide)⟩
